import Mathlib

/-!
Shallow embedding of the sfdx-mdt-plugin core covered by the specification:
the profile-access identity resolvers and file-name comparator of
`src/utils/utilities.ts`, the XML-file writer of the same file, and the
git-delta orchestrator of `src/commands/mdt/git/delta.ts`.

JavaScript strings are modelled by Lean `String` (BMP code points coincide
with UTF-16 code units for all paths handled here).  The JS string helpers
(`split`, `join`, `indexOf`/`lastIndexOf` + `substring`, `padStart`,
`startsWith`, `endsWith`, first-occurrence `replace`) are embedded by the
structurally recursive functions below, specialised to the single-character
separators the source uses; they are written over `String.data` so that the
kernel can evaluate them on concrete inputs.
-/

/-- Embedding of `text.split(sep)` (JS) on the character list, for a
single-character separator: `"" ↦ [""]`, `"." ↦ ["", ""]`, etc. -/
def splitOnCharL (sep : Char) : List Char → List (List Char)
  | [] => [[]]
  | c :: rest =>
    let r := splitOnCharL sep rest
    if c = sep then [] :: r
    else
      match r with
      | [] => [[c]]
      | h :: t => (c :: h) :: t

/-- `text.split(sep)` (JS) for a single-character separator. -/
def splitStr (s : String) (sep : Char) : List String :=
  (splitOnCharL sep s.data).map String.mk

/-- `parts.join(sep)` (JS `Array.prototype.join`) for a single-character
separator. -/
def joinChar (sep : Char) : List String → String
  | [] => ""
  | [p] => p
  | p :: q :: ps => p ++ String.mk [sep] ++ joinChar sep (q :: ps)

/-- `s.startsWith(pre)` (JS). -/
def startsWithS (s pre : String) : Bool := pre.data.isPrefixOf s.data

/-- `s.endsWith(suf)` (JS). -/
def endsWithS (s suf : String) : Bool := suf.data.isSuffixOf s.data

/-- Strict lexicographic (ordinal, code-unit) comparison of character lists;
this is the order JS `<`/`>` induce on strings. -/
def lexLtChars : List Char → List Char → Bool
  | _, [] => false
  | [], _ :: _ => true
  | a :: as, b :: bs => if a < b then true else if b < a then false else lexLtChars as bs

/-- `a < b` for JS strings (so JS `a > b` is `jsLt b a`). -/
def jsLt (a b : String) : Bool := lexLtChars a.data b.data

/-- Characters before the first occurrence of `c`, if `c` occurs. -/
def takeUntilChar (c : Char) : List Char → Option (List Char)
  | [] => none
  | x :: xs => if x = c then some [] else (takeUntilChar c xs).map (x :: ·)

/-- `substringBefore` (utilities.ts): `text.substring(0, text.indexOf(char))`;
when `char` does not occur, JS `indexOf` gives `-1` and `substring(0, -1)`
clamps to the empty string. -/
def substringBefore (text : String) (c : Char) : String :=
  match takeUntilChar c text.data with
  | some l => String.mk l
  | none => ""

/-- Characters after the first occurrence of `c`, if `c` occurs. -/
def dropThroughChar (c : Char) : List Char → Option (List Char)
  | [] => none
  | x :: xs => if x = c then some xs else dropThroughChar c xs

/-- `substringAfter` (utilities.ts): `text.substring(text.indexOf(char) + 1)`;
when `char` does not occur this is `text.substring(0)`, the whole text. -/
def substringAfter (text : String) (c : Char) : String :=
  match dropThroughChar c text.data with
  | some l => String.mk l
  | none => text

/-- Characters before the last occurrence of `c`, if `c` occurs. -/
def beforeLastChar (c : Char) : List Char → Option (List Char)
  | [] => none
  | x :: xs =>
    match beforeLastChar c xs with
    | some r => some (x :: r)
    | none => if x = c then some [] else none

/-- `substringBeforeLast` (utilities.ts):
`text.substring(0, text.lastIndexOf(char))`; absent separator gives `""`. -/
def substringBeforeLast (text : String) (c : Char) : String :=
  match beforeLastChar c text.data with
  | some l => String.mk l
  | none => ""

/-- Characters after the last occurrence of `c`, if `c` occurs. -/
def afterLastChar (c : Char) : List Char → Option (List Char)
  | [] => none
  | x :: xs =>
    match afterLastChar c xs with
    | some r => some r
    | none => if x = c then some xs else none

/-- `substringAfterLast` (utilities.ts):
`text.substring(text.lastIndexOf(char) + 1)`; absent separator gives the
whole text. -/
def substringAfterLast (text : String) (c : Char) : String :=
  match afterLastChar c text.data with
  | some l => String.mk l
  | none => text

/-- `substringBeforeNthChar` (utilities.ts):
`text.split(char).slice(0, n).join(char)`. -/
def substringBeforeNthChar (text : String) (c : Char) (n : Nat) : String :=
  joinChar c ((splitStr text c).take n)

/-- `uncapitalizeFirstLetter` (utilities.ts):
`string.charAt(0).toLowerCase() + string.slice(1)` (ASCII case-folding, which
is all the call sites use). -/
def uncapitalizeFirstLetter (s : String) : String :=
  match s.data with
  | [] => ""
  | c :: rest => String.mk (c.toLower :: rest)

/-- `part.padStart(n, c)` (JS): left-pad to length `n` (no-op when already
at least that long). -/
def padStart (s : String) (n : Nat) (c : Char) : String :=
  String.mk (List.replicate (n - s.data.length) c ++ s.data)

/-- `normalizeIP` (utilities.ts):
`ip.split(".").map((part) => part.padStart(3, "0")).join(".")`. -/
def normalizeIP (ip : String) : String :=
  joinChar '.' ((splitStr ip '.').map (fun part => padStart part 3 '0'))

/-- A `layoutAssignments` profile-access entry: the fields the identity
resolver reads.  `recordType` is `none` when the XML tag is absent
(JS `undefined`). -/
structure LayoutAssignmentEntry where
  layout : String
  recordType : Option String

/-- A `loginIpRanges` profile-access entry. -/
structure LoginIpRangeEntry where
  startAddress : String
  endAddress : String

namespace profileAccessNameMap

/-- `profileAccessNameMap.layoutAssignments` (utilities.ts):
`profileAccess["layout"] + (profileAccess["recordType"] ? "." +
profileAccess["recordType"] : "")`.  JS truthiness makes both a missing and
an empty `recordType` fall to the `""` branch. -/
def layoutAssignments (profileAccess : LayoutAssignmentEntry) : String :=
  profileAccess.layout ++
    (match profileAccess.recordType with
     | some rt => if rt = "" then "" else "." ++ rt
     | none => "")

/-- `profileAccessNameMap.loginIpRanges` (utilities.ts):
`normalizeIP(startAddress) + "." + normalizeIP(endAddress)`. -/
def loginIpRanges (profileAccess : LoginIpRangeEntry) : String :=
  normalizeIP profileAccess.startAddress ++ "." ++ normalizeIP profileAccess.endAddress

end profileAccessNameMap

/-- `profileAccessFilenamesCompare` (utilities.ts).  JS `a > b` on strings is
embedded as `jsLt b a`. -/
def profileAccessFilenamesCompare (fileName1 fileName2 : String) : Int :=
  let accessType := uncapitalizeFirstLetter (substringBefore fileName1 '.')
  if accessType = "layoutAssignments" then
    let fileName1Parts := splitStr fileName1 '.'
    let fileName2Parts := splitStr fileName2 '.'
    let layoutName1 := substringBefore (substringAfter fileName1 '.') '.'
    let layoutName2 := substringBefore (substringAfter fileName2 '.') '.'
    if fileName1Parts.length ≠ fileName2Parts.length then
      if layoutName1 = layoutName2 then
        if fileName1Parts.length > fileName2Parts.length then 1 else -1
      else
        if jsLt layoutName2 layoutName1 then 1 else -1
    else
      if layoutName1 ≠ layoutName2 then
        if startsWithS layoutName1 layoutName2 then 1
        else if startsWithS layoutName2 layoutName1 then -1
        else if jsLt fileName2 fileName1 then 1 else -1
      else
        if jsLt fileName2 fileName1 then 1 else -1
  else
    if jsLt fileName2 fileName1 then 1 else -1

/-- File-system contents: path ↦ file content (for `writeXMLFile`'s model). -/
def FsMap : Type := String → Option String

/-- `fs.writeFileSync(path, content)` without flags: truncate/create. -/
def writeFileSyncTrunc (fsm : FsMap) (path content : String) : FsMap :=
  fun p => if p = path then some content else fsm p

/-- `fs.writeFileSync(path, content, { flag: "a" })`: append, creating the
file when absent. -/
def writeFileSyncAppend (fsm : FsMap) (path content : String) : FsMap :=
  fun p => if p = path then some ((fsm path).getD "" ++ content) else fsm p

/-- The fixed declaration line written by `writeXMLFile`. -/
def xmlDeclaration : String := "<?xml version=\"1.0\" encoding=\"UTF-8\"?>\n"

/-- `writeXMLFile` (utilities.ts): truncating write of the declaration line,
then an appending write of `content`. -/
def writeXMLFile (fsm : FsMap) (path content : String) : FsMap :=
  writeFileSyncAppend (writeFileSyncTrunc fsm path xmlDeclaration) path content

/-- `FMD_FOLDER` (delta.ts). -/
def FMD_FOLDER : String := "force-app/main/default"

/-- Observable file-system / VCS effects of one `delta` run.  `copyDiff`
records a call to `copyDiffOfComplexMetadata` (utils/delta.ts, outside the
embedded sources) with all its arguments; its internal writes are opaque. -/
inductive FsEvent where
  | mkdirRec (path : String)
  | writeFile (path content : String)
  | copyFile (src dst : String)
  | copyDiff (fromRef metadataFilePath rootTagName : String)
      (requiredTagNames : List String) (packagedir : String) (destructivedir : Option String)
  deriving Repr, DecidableEq

/-- External collaborators of the orchestrator, all black boxes at the spec's
interface boundary: the git status list, `gitShow` (may fail with a VCS
lookup error), the file system (`files` powers both `fs.existsSync` and the
source check of `fs.copyFileSync`, which throws on a missing source), the
directory listing, and the possible per-file failure of
`copyDiffOfComplexMetadata` (parse / lookup errors, spec §7). -/
structure Env where
  gitDiff : String → String → String
  gitShow : String → String → Except String String
  files : String → Option String
  readdir : String → List String
  copyDiffErr : String → Option String

/-- Result of a (possibly failing) effectful step: the events emitted before
returning or throwing, and the thrown error if any. -/
abbrev Eff := List FsEvent × Option String

/-- `fs.copyFileSync(src, dst)`: emits a copy event, or throws when the
source file is missing. -/
def copyFileSyncE (env : Env) (src dst : String) : Eff :=
  match env.files src with
  | some _ => ([FsEvent.copyFile src dst], none)
  | none => ([], some ("ENOENT: no such file " ++ src))

/-- Sequencing of two effectful steps: a thrown error skips the rest. -/
def seqE (a : Eff) (b : Unit → Eff) : Eff :=
  match a.2 with
  | some _ => a
  | none =>
    let r := b ()
    (a.1 ++ r.1, r.2)

/-- A `for … of` loop over `l` whose body may throw: the first error aborts
the remaining iterations, keeping the events already emitted. -/
def runEach {α : Type} (f : α → Eff) : List α → Eff
  | [] => ([], none)
  | x :: xs =>
    let r := f x
    match r.2 with
    | some e => (r.1, some e)
    | none =>
      let rest := runEach f xs
      (r.1 ++ rest.1, rest.2)

/-- One line of the `git diff --name-status` output, classified as in
delta.ts lines 81-112: returns the contributions to
(`changedMetadataFilePathList`, `deletedMetadataFilePathList`).  A rename
line reads field 2; JS yields `undefined` there when the field is missing,
rendered as the string "undefined". -/
def classifyLine (diffFileLine : String) : List String × List String :=
  let diffFileParts := splitStr diffFileLine '\t'
  if diffFileParts.length > 1 ∧ startsWithS (diffFileParts.getD 1 "") FMD_FOLDER = true then
    match (diffFileParts.getD 0 "").data with
    | [] => ([diffFileParts.getD 1 ""], [])
    | c :: _ =>
      if c = 'D' then ([], [diffFileParts.getD 1 ""])
      else if c = 'R' then
        ([diffFileParts.getD 2 "undefined"], [diffFileParts.getD 1 ""])
      else ([diffFileParts.getD 1 ""], [])
  else ([], [])

/-- The classification loop over all diff lines (order-preserving pushes). -/
def classifyList : List String → List String × List String
  | [] => ([], [])
  | l :: ls =>
    let r := classifyLine l
    let rest := classifyList ls
    (r.1 ++ rest.1, r.2 ++ rest.2)

/-- Classification of the whole `git diff --name-status` output. -/
def classify (gitDiffList : String) : List String × List String :=
  classifyList (splitStr gitDiffList '\n')

/-- Body of the destructive-package loop (delta.ts lines 114-120): recursive
mkdir, then `gitShow` (which may throw), then a verbatim write of the old
revision's content at the same relative path. -/
def processDeleted (env : Env) (fromRef destructivedir metadataFilePath : String) : Eff :=
  let ev1 := FsEvent.mkdirRec (destructivedir ++ "/" ++ substringBeforeLast metadataFilePath '/')
  match env.gitShow fromRef metadataFilePath with
  | Except.error e => ([ev1], some e)
  | Except.ok fileContent =>
    ([ev1, FsEvent.writeFile (destructivedir ++ "/" ++ metadataFilePath) fileContent], none)

/-- Tail of the record-type regexp: `[^/]+/recordTypes` after the objects
prefix — at least one non-slash character followed by "/recordTypes". -/
def recordTypesTail : List Char := "/recordTypes".data

/-- Matches `[^/]+/recordTypes` at the head of the list. -/
def segThenRecordTypes : List Char → Bool
  | [] => false
  | c :: rest => decide (c ≠ '/') && (recordTypesTail.isPrefixOf rest || segThenRecordTypes rest)

/-- The literal prefix of the record-type regexp. -/
def objectsPrefix : List Char := (FMD_FOLDER ++ "/objects/").data

/-- Matches the whole record-type regexp at the head of the list. -/
def containsRecordTypesAt (l : List Char) : Bool :=
  objectsPrefix.isPrefixOf l && segThenRecordTypes (l.drop objectsPrefix.length)

/-- Unanchored search for the record-type regexp. -/
def containsRecordTypes : List Char → Bool
  | [] => false
  | c :: rest => containsRecordTypesAt (c :: rest) || containsRecordTypes rest

/-- `new RegExp(`${FMD_FOLDER}/objects/[^/]+/recordTypes`).test(folderPath)`
(delta.ts): an unanchored search. -/
def isRecordTypeFolder (folderPath : String) : Bool := containsRecordTypes folderPath.data

/-- `s.replace(pat, repl)` (JS) with a string pattern: replaces the first
occurrence only. -/
def replaceFirstL (pat repl : List Char) : List Char → List Char
  | [] => if pat.isEmpty then repl else []
  | c :: rest =>
    if pat.isPrefixOf (c :: rest) then repl ++ (c :: rest).drop pat.length
    else c :: replaceFirstL pat repl rest

/-- `s.replace(pat, repl)` (JS, string pattern, first occurrence). -/
def replaceFirst (s pat repl : String) : String :=
  String.mk (replaceFirstL pat.data repl.data s.data)

/-- A call to `copyDiffOfComplexMetadata` (utils/delta.ts, outside the
embedded sources).  Modelled from the spec: a compound diff of one file
between two revisions that writes only into `packagedir` (and
`destructivedir` when given) and may fail for that file alone (§4.6, §7);
the failure oracle is `env.copyDiffErr`. -/
def copyDiffE (env : Env) (fromRef metadataFilePath rootTagName : String)
    (requiredTagNames : List String) (packagedir : String) (destructivedir : Option String) : Eff :=
  ([FsEvent.copyDiff fromRef metadataFilePath rootTagName requiredTagNames packagedir destructivedir],
   env.copyDiffErr metadataFilePath)

/-- The per-path strategy dispatch of delta.ts lines 132-311: the `switch` on
`substringBeforeNthChar(metadataFilePath, "/", 4)`. -/
def strategyStep (env : Env) (fromRef packagedir : String) (destructivedir : Option String)
    (metadataFilePath : String) : Eff :=
  let folderPath := substringBeforeLast metadataFilePath '/'
  let metadataFolderPath := substringBeforeNthChar metadataFilePath '/' 4
  if metadataFolderPath = FMD_FOLDER ++ "/aura" then
    runEach
      (fun auraFileName =>
        copyFileSyncE env (folderPath ++ "/" ++ auraFileName)
          (packagedir ++ "/" ++ folderPath ++ "/" ++ auraFileName))
      (env.readdir folderPath)
  else if metadataFolderPath = FMD_FOLDER ++ "/objects" then
    if isRecordTypeFolder folderPath then
      copyDiffE env fromRef metadataFilePath "RecordType" ["fullName", "active", "label"]
        packagedir none
    else
      copyFileSyncE env metadataFilePath (packagedir ++ "/" ++ metadataFilePath)
  else if metadataFolderPath = FMD_FOLDER ++ "/objectTranslations" then
    let objTraFolderName := substringAfterLast folderPath '/'
    seqE
      (copyFileSyncE env (folderPath ++ "/" ++ objTraFolderName ++ ".objectTranslation-meta.xml")
        (packagedir ++ "/" ++ folderPath ++ "/" ++ objTraFolderName ++ ".objectTranslation-meta.xml"))
      (fun _ => copyFileSyncE env metadataFilePath (packagedir ++ "/" ++ metadataFilePath))
  else if metadataFolderPath = FMD_FOLDER ++ "/staticresources" then
    seqE
      (if folderPath ≠ FMD_FOLDER ++ "/staticresources" then
        let subFolderPath := replaceFirst folderPath (FMD_FOLDER ++ "/staticresources" ++ "/") ""
        let resourceFolderName := substringBefore (subFolderPath ++ "/") '/'
        copyFileSyncE env
          (FMD_FOLDER ++ "/staticresources" ++ "/" ++ resourceFolderName ++ ".resource-meta.xml")
          (packagedir ++ "/" ++ FMD_FOLDER ++ "/staticresources" ++ "/" ++ resourceFolderName ++
            ".resource-meta.xml")
      else if endsWithS metadataFilePath ".resource-meta.xml" = false then
        let resourceName := substringBeforeLast (substringAfterLast metadataFilePath '/') '.'
        copyFileSyncE env (folderPath ++ "/" ++ resourceName ++ ".resource-meta.xml")
          (packagedir ++ "/" ++ folderPath ++ "/" ++ resourceName ++ ".resource-meta.xml")
      else ([], none))
      (fun _ => copyFileSyncE env metadataFilePath (packagedir ++ "/" ++ metadataFilePath))
  else if metadataFolderPath = FMD_FOLDER ++ "/labels" then
    copyDiffE env fromRef metadataFilePath "CustomLabels" [] packagedir destructivedir
  else if metadataFolderPath = FMD_FOLDER ++ "/profiles" then
    copyDiffE env fromRef metadataFilePath "Profile" [] packagedir none
  else if metadataFolderPath = FMD_FOLDER ++ "/permissionsets" then
    copyDiffE env fromRef metadataFilePath "PermissionSet" [] packagedir none
  else if metadataFolderPath = FMD_FOLDER ++ "/sharingRules" then
    copyDiffE env fromRef metadataFilePath "SharingRules" [] packagedir destructivedir
  else if metadataFolderPath = FMD_FOLDER ++ "/assignmentRules" then
    copyDiffE env fromRef metadataFilePath "AssignmentRules" [] packagedir destructivedir
  else if metadataFolderPath = FMD_FOLDER ++ "/autoResponseRules" then
    copyDiffE env fromRef metadataFilePath "AutoResponseRules" [] packagedir destructivedir
  else if metadataFolderPath = FMD_FOLDER ++ "/matchingRules" then
    copyDiffE env fromRef metadataFilePath "MatchingRules" [] packagedir destructivedir
  else if metadataFolderPath = FMD_FOLDER ++ "/translations" then
    copyDiffE env fromRef metadataFilePath "Translations" [] packagedir none
  else if metadataFolderPath = FMD_FOLDER ++ "/workflows" then
    copyDiffE env fromRef metadataFilePath "Workflow" [] packagedir destructivedir
  else
    copyFileSyncE env metadataFilePath (packagedir ++ "/" ++ metadataFilePath)

/-- Body of the changed-path loop (delta.ts lines 122-321): the two
recursive mkdirs, the strategy dispatch, then the companion
`-meta.xml` copy guarded by `fs.existsSync`. -/
def processChanged (env : Env) (fromRef packagedir : String) (destructivedir : Option String)
    (metadataFilePath : String) : Eff :=
  let mk1 := FsEvent.mkdirRec (packagedir ++ "/" ++ substringBeforeLast metadataFilePath '/')
  let mk2 := match destructivedir with
    | some d => [FsEvent.mkdirRec (d ++ "/" ++ substringBeforeLast metadataFilePath '/')]
    | none => []
  let s := strategyStep env fromRef packagedir destructivedir metadataFilePath
  match s.2 with
  | some e => (mk1 :: mk2 ++ s.1, some e)
  | none =>
    let metaFileName := metadataFilePath ++ "-meta.xml"
    if (env.files metaFileName).isSome then
      (mk1 :: mk2 ++ s.1 ++ [FsEvent.copyFile metaFileName (packagedir ++ "/" ++ metaFileName)],
       none)
    else
      (mk1 :: mk2 ++ s.1, none)

/-- `Differ.delta` (delta.ts lines 75-322): classify the status list, run the
destructive loop (when a destructive directory was given), then the
changed-path loop.  A throw anywhere propagates, aborting the rest. -/
def delta (env : Env) (fromRef toRef packagedir : String) (destructivedir : Option String) : Eff :=
  let gitDiffList := env.gitDiff fromRef toRef
  let changedMetadataFilePathList := (classify gitDiffList).1
  let deletedMetadataFilePathList := (classify gitDiffList).2
  let phase2 := match destructivedir with
    | some d => runEach (processDeleted env fromRef d) deletedMetadataFilePathList
    | none => ([], none)
  match phase2.2 with
  | some e => (phase2.1, some e)
  | none =>
    let phase3 :=
      runEach (processChanged env fromRef packagedir destructivedir) changedMetadataFilePathList
    (phase2.1 ++ phase3.1, phase3.2)

/-- What `Differ.run` hands back: the `{ success: true }` JSON and the
errors passed to `this.ux.error`. -/
structure RunResult where
  success : Bool
  loggedErrors : List String
  deriving Repr, DecidableEq

/-- `Differ.run` (delta.ts lines 49-66): one try/catch around the whole
`delta` call; a caught error is logged via `ux.error`, and
`{ success: true }` is returned either way. -/
def run (env : Env) (fromRef toRef packagedir : String) (destructivedir : Option String) :
    List FsEvent × RunResult :=
  let r := delta env fromRef toRef packagedir destructivedir
  match r.2 with
  | some e => (r.1, { success := true, loggedErrors := [e] })
  | none => (r.1, { success := true, loggedErrors := [] })

/-- Digits-to-value reading of a character list (the numeric value of a
decimal numeral). -/
def strVal (l : List Char) : Nat :=
  l.foldl (fun acc c => acc * 10 + (c.toNat - 48)) 0

/-- A dotted component that is a numeral of at most 3 digits. -/
def isNumeral3 (s : String) : Bool :=
  !s.data.isEmpty && decide (s.data.length ≤ 3) && s.data.all (fun c => c.isDigit)

/-- The numeric components of a dotted address string. -/
def ipNums (ip : String) : List Nat :=
  (splitStr ip '.').map (fun p => strVal p.data)

/-! ## Generic helper lemmas -/

theorem lexLtChars_irrefl (l : List Char) : lexLtChars l l = false := by
  induction l with
  | nil => rfl
  | cons a as ih => simp [lexLtChars, lt_irrefl, ih]

theorem jsLt_irrefl (s : String) : jsLt s s = false := lexLtChars_irrefl s.data

theorem startsWithS_append (a b : String) : startsWithS (a ++ b) a = true := by
  unfold startsWithS
  rw [String.data_append, List.isPrefixOf_iff_prefix]
  exact List.prefix_append a.data b.data

theorem startsWithS_append_right (s pre t : String) (h : startsWithS s pre = true) :
    startsWithS (s ++ t) pre = true := by
  unfold startsWithS at h ⊢
  rw [String.data_append, List.isPrefixOf_iff_prefix] at *
  exact h.trans (List.prefix_append s.data t.data)

theorem runEach_cons_ok {α : Type} (f : α → Eff) (x : α) (xs : List α) (h : (f x).2 = none) :
    runEach f (x :: xs) = ((f x).1 ++ (runEach f xs).1, (runEach f xs).2) := by
  simp only [runEach, h]

theorem runEach_cons_err {α : Type} (f : α → Eff) (x : α) (xs : List α) (e : String)
    (h : (f x).2 = some e) : runEach f (x :: xs) = ((f x).1, some e) := by
  simp only [runEach, h]

theorem runEach_ok_mem {α : Type} (f : α → Eff) (l : List α) (h : (runEach f l).2 = none)
    (x : α) (hx : x ∈ l) :
    (f x).2 = none ∧ ∃ pre post, (runEach f l).1 = pre ++ ((f x).1 ++ post) := by
  induction l with
  | nil => cases hx
  | cons y ys ih =>
    cases hy : (f y).2 with
    | some e => rw [runEach_cons_err f y ys e hy] at h; simp at h
    | none =>
      rw [runEach_cons_ok f y ys hy] at h ⊢
      rcases List.mem_cons.mp hx with rfl | hx'
      · exact ⟨hy, [], (runEach f ys).1, by simp⟩
      · obtain ⟨h2, pre, post, heq⟩ := ih h hx'
        exact ⟨h2, (f y).1 ++ pre, post, by simp [heq]⟩

theorem runEach_events {α : Type} (f : α → Eff) (l : List α) (ev : FsEvent)
    (hev : ev ∈ (runEach f l).1) : ∃ x, x ∈ l ∧ ev ∈ (f x).1 := by
  induction l with
  | nil => simp [runEach] at hev
  | cons y ys ih =>
    cases hy : (f y).2 with
    | some e =>
      rw [runEach_cons_err f y ys e hy] at hev
      exact ⟨y, by simp, hev⟩
    | none =>
      rw [runEach_cons_ok f y ys hy] at hev
      rcases List.mem_append.mp hev with h | h
      · exact ⟨y, by simp, h⟩
      · obtain ⟨x, hx, hx2⟩ := ih h
        exact ⟨x, by simp [hx], hx2⟩

theorem seqE_events (a : Eff) (b : Unit → Eff) (ev : FsEvent) (hev : ev ∈ (seqE a b).1) :
    ev ∈ a.1 ∨ ev ∈ (b ()).1 := by
  unfold seqE at hev
  cases h : a.2 with
  | some e => rw [h] at hev; exact Or.inl hev
  | none => rw [h] at hev; simpa using List.mem_append.mp hev

theorem copyFileSyncE_events (env : Env) (src dst : String) (ev : FsEvent)
    (hev : ev ∈ (copyFileSyncE env src dst).1) :
    ev = FsEvent.copyFile src dst ∧ (env.files src).isSome = true := by
  unfold copyFileSyncE at hev
  cases h : env.files src with
  | some c => rw [h] at hev; simp at hev; simp [hev, h]
  | none => rw [h] at hev; simp at hev

/-! ## Classification lemmas -/

theorem classifyList_mem (ls : List String) (l : String) (hl : l ∈ ls) :
    (∀ p ∈ (classifyLine l).1, p ∈ (classifyList ls).1) ∧
    (∀ p ∈ (classifyLine l).2, p ∈ (classifyList ls).2) := by
  induction ls with
  | nil => cases hl
  | cons y ys ih =>
    rcases List.mem_cons.mp hl with rfl | hl'
    · exact ⟨fun p hp => by simp [classifyList, hp], fun p hp => by simp [classifyList, hp]⟩
    · obtain ⟨h1, h2⟩ := ih hl'
      exact ⟨fun p hp => by simp [classifyList, h1 p hp], fun p hp => by simp [classifyList, h2 p hp]⟩

theorem classifyList_src (ls : List String) :
    (∀ p ∈ (classifyList ls).1, ∃ l, l ∈ ls ∧ p ∈ (classifyLine l).1) ∧
    (∀ p ∈ (classifyList ls).2, ∃ l, l ∈ ls ∧ p ∈ (classifyLine l).2) := by
  induction ls with
  | nil => exact ⟨fun p hp => by simp [classifyList] at hp, fun p hp => by simp [classifyList] at hp⟩
  | cons y ys ih =>
    constructor
    · intro p hp
      rcases List.mem_append.mp (by simpa [classifyList] using hp) with h | h
      · exact ⟨y, by simp, h⟩
      · obtain ⟨l, hl, hl2⟩ := ih.1 p h
        exact ⟨l, by simp [hl], hl2⟩
    · intro p hp
      rcases List.mem_append.mp (by simpa [classifyList] using hp) with h | h
      · exact ⟨y, by simp, h⟩
      · obtain ⟨l, hl, hl2⟩ := ih.2 p h
        exact ⟨l, by simp [hl], hl2⟩

theorem classifyLine_deleted_fmd (l : String) (p : String) (hp : p ∈ (classifyLine l).2) :
    startsWithS p FMD_FOLDER = true := by
  simp only [classifyLine] at hp
  split at hp
  · rename_i hguard
    split at hp <;> (try split_ifs at hp) <;>
      simp_all [List.getD_eq_getElem?_getD, List.getElem?_eq_getElem hguard.1]
  · simp at hp

/-! ## Phase lemmas for `delta` -/

theorem processDeleted_ok (env : Env) (fromRef d path content : String)
    (h : env.gitShow fromRef path = Except.ok content) :
    processDeleted env fromRef d path =
      ([FsEvent.mkdirRec (d ++ "/" ++ substringBeforeLast path '/'),
        FsEvent.writeFile (d ++ "/" ++ path) content], none) := by
  simp only [processDeleted, h]

theorem processDeleted_events (env : Env) (fromRef d path : String) (ev : FsEvent)
    (hev : ev ∈ (processDeleted env fromRef d path).1) :
    ev = FsEvent.mkdirRec (d ++ "/" ++ substringBeforeLast path '/') ∨
    ∃ content, ev = FsEvent.writeFile (d ++ "/" ++ path) content := by
  simp only [processDeleted] at hev
  cases h : env.gitShow fromRef path with
  | error e =>
    rw [h] at hev
    simp at hev
    simp [hev]
  | ok c =>
    rw [h] at hev
    simp at hev
    rcases hev with h1 | h1
    · simp [h1]
    · exact Or.inr ⟨c, h1⟩

theorem delta_some_ok (env : Env) (fromRef toRef packagedir d : String)
    (h2 : (runEach (processDeleted env fromRef d) (classify (env.gitDiff fromRef toRef)).2).2 = none) :
    delta env fromRef toRef packagedir (some d) =
      ((runEach (processDeleted env fromRef d) (classify (env.gitDiff fromRef toRef)).2).1 ++
        (runEach (processChanged env fromRef packagedir (some d))
          (classify (env.gitDiff fromRef toRef)).1).1,
       (runEach (processChanged env fromRef packagedir (some d))
          (classify (env.gitDiff fromRef toRef)).1).2) := by
  simp only [delta, h2]

theorem delta_some_err (env : Env) (fromRef toRef packagedir d e : String)
    (h2 : (runEach (processDeleted env fromRef d) (classify (env.gitDiff fromRef toRef)).2).2 =
      some e) :
    delta env fromRef toRef packagedir (some d) =
      ((runEach (processDeleted env fromRef d) (classify (env.gitDiff fromRef toRef)).2).1,
       some e) := by
  simp only [delta, h2]

theorem delta_none_eq (env : Env) (fromRef toRef packagedir : String) :
    delta env fromRef toRef packagedir none =
      ((runEach (processChanged env fromRef packagedir none)
          (classify (env.gitDiff fromRef toRef)).1).1,
       (runEach (processChanged env fromRef packagedir none)
          (classify (env.gitDiff fromRef toRef)).1).2) := by
  simp only [delta, List.nil_append]

theorem delta_ok_phase2 (env : Env) (fromRef toRef packagedir d : String)
    (h : (delta env fromRef toRef packagedir (some d)).2 = none) :
    (runEach (processDeleted env fromRef d) (classify (env.gitDiff fromRef toRef)).2).2 = none := by
  by_contra hne
  obtain ⟨e, he⟩ := Option.ne_none_iff_exists'.mp hne
  rw [delta_some_err env fromRef toRef packagedir d e he] at h
  simp at h

theorem delta_ok_phase3 (env : Env) (fromRef toRef packagedir : String) (dd : Option String)
    (h : (delta env fromRef toRef packagedir dd).2 = none) :
    (runEach (processChanged env fromRef packagedir dd)
      (classify (env.gitDiff fromRef toRef)).1).2 = none := by
  cases dd with
  | none => rw [delta_none_eq] at h; exact h
  | some d =>
    have h2 := delta_ok_phase2 env fromRef toRef packagedir d h
    rw [delta_some_ok env fromRef toRef packagedir d h2] at h
    exact h

theorem copyDiffE_events (env : Env) (fromRef p rt : String) (req : List String)
    (pkg : String) (ddx : Option String) (ev : FsEvent)
    (hev : ev ∈ (copyDiffE env fromRef p rt req pkg ddx).1) :
    ev = FsEvent.copyDiff fromRef p rt req pkg ddx := by
  simpa [copyDiffE] using hev

theorem copyFileSyncE_shape (env : Env) (packagedir src dst : String) (ev : FsEvent)
    (hdst : startsWithS dst (packagedir ++ "/") = true)
    (hx : ev ∈ (copyFileSyncE env src dst).1) :
    ∃ s d, ev = FsEvent.copyFile s d ∧ startsWithS d (packagedir ++ "/") = true ∧
      (env.files s).isSome = true := by
  obtain ⟨rfl, hsome⟩ := copyFileSyncE_events env src dst ev hx
  exact ⟨src, dst, rfl, hdst, hsome⟩

theorem strategyStep_events (env : Env) (fromRef packagedir : String) (dd : Option String)
    (path : String) (ev : FsEvent)
    (hev : ev ∈ (strategyStep env fromRef packagedir dd path).1) :
    (∃ src dst, ev = FsEvent.copyFile src dst ∧ startsWithS dst (packagedir ++ "/") = true ∧
       (env.files src).isSome = true) ∨
    (∃ rootTagName requiredTagNames ddx,
       ev = FsEvent.copyDiff fromRef path rootTagName requiredTagNames packagedir ddx) := by
  delta strategyStep at hev
  by_cases h1 : substringBeforeNthChar path '/' 4 = FMD_FOLDER ++ "/aura"
  · rw [if_pos h1] at hev
    obtain ⟨x, hxmem, hx⟩ := runEach_events _ _ ev hev
    exact Or.inl (copyFileSyncE_shape env packagedir _ _ ev
      (by repeat first | exact startsWithS_append _ _ | apply startsWithS_append_right) hx)
  rw [if_neg h1] at hev
  by_cases h2 : substringBeforeNthChar path '/' 4 = FMD_FOLDER ++ "/objects"
  · rw [if_pos h2] at hev
    by_cases hrt : isRecordTypeFolder (substringBeforeLast path '/') = true
    · rw [if_pos hrt] at hev
      exact Or.inr ⟨_, _, _, copyDiffE_events env fromRef path _ _ packagedir _ ev hev⟩
    · rw [if_neg hrt] at hev
      exact Or.inl (copyFileSyncE_shape env packagedir _ _ ev
        (by repeat first | exact startsWithS_append _ _ | apply startsWithS_append_right) hev)
  rw [if_neg h2] at hev
  by_cases h3 : substringBeforeNthChar path '/' 4 = FMD_FOLDER ++ "/objectTranslations"
  · rw [if_pos h3] at hev
    rcases seqE_events _ _ ev hev with hx | hx <;>
      exact Or.inl (copyFileSyncE_shape env packagedir _ _ ev
        (by repeat first | exact startsWithS_append _ _ | apply startsWithS_append_right) hx)
  rw [if_neg h3] at hev
  by_cases h4 : substringBeforeNthChar path '/' 4 = FMD_FOLDER ++ "/staticresources"
  · rw [if_pos h4] at hev
    rcases seqE_events _ _ ev hev with hx | hx
    · by_cases h41 : substringBeforeLast path '/' ≠ FMD_FOLDER ++ "/staticresources"
      · rw [if_pos h41] at hx
        exact Or.inl (copyFileSyncE_shape env packagedir _ _ ev
          (by repeat first | exact startsWithS_append _ _ | apply startsWithS_append_right) hx)
      · rw [if_neg h41] at hx
        by_cases h42 : endsWithS path ".resource-meta.xml" = false
        · rw [if_pos h42] at hx
          exact Or.inl (copyFileSyncE_shape env packagedir _ _ ev
            (by repeat first | exact startsWithS_append _ _ | apply startsWithS_append_right) hx)
        · rw [if_neg h42] at hx
          simp at hx
    · exact Or.inl (copyFileSyncE_shape env packagedir _ _ ev
        (by repeat first | exact startsWithS_append _ _ | apply startsWithS_append_right) hx)
  rw [if_neg h4] at hev
  by_cases h5 : substringBeforeNthChar path '/' 4 = FMD_FOLDER ++ "/labels"
  · rw [if_pos h5] at hev
    exact Or.inr ⟨_, _, _, copyDiffE_events env fromRef path _ _ packagedir _ ev hev⟩
  rw [if_neg h5] at hev
  by_cases h6 : substringBeforeNthChar path '/' 4 = FMD_FOLDER ++ "/profiles"
  · rw [if_pos h6] at hev
    exact Or.inr ⟨_, _, _, copyDiffE_events env fromRef path _ _ packagedir _ ev hev⟩
  rw [if_neg h6] at hev
  by_cases h7 : substringBeforeNthChar path '/' 4 = FMD_FOLDER ++ "/permissionsets"
  · rw [if_pos h7] at hev
    exact Or.inr ⟨_, _, _, copyDiffE_events env fromRef path _ _ packagedir _ ev hev⟩
  rw [if_neg h7] at hev
  by_cases h8 : substringBeforeNthChar path '/' 4 = FMD_FOLDER ++ "/sharingRules"
  · rw [if_pos h8] at hev
    exact Or.inr ⟨_, _, _, copyDiffE_events env fromRef path _ _ packagedir _ ev hev⟩
  rw [if_neg h8] at hev
  by_cases h9 : substringBeforeNthChar path '/' 4 = FMD_FOLDER ++ "/assignmentRules"
  · rw [if_pos h9] at hev
    exact Or.inr ⟨_, _, _, copyDiffE_events env fromRef path _ _ packagedir _ ev hev⟩
  rw [if_neg h9] at hev
  by_cases h10 : substringBeforeNthChar path '/' 4 = FMD_FOLDER ++ "/autoResponseRules"
  · rw [if_pos h10] at hev
    exact Or.inr ⟨_, _, _, copyDiffE_events env fromRef path _ _ packagedir _ ev hev⟩
  rw [if_neg h10] at hev
  by_cases h11 : substringBeforeNthChar path '/' 4 = FMD_FOLDER ++ "/matchingRules"
  · rw [if_pos h11] at hev
    exact Or.inr ⟨_, _, _, copyDiffE_events env fromRef path _ _ packagedir _ ev hev⟩
  rw [if_neg h11] at hev
  by_cases h12 : substringBeforeNthChar path '/' 4 = FMD_FOLDER ++ "/translations"
  · rw [if_pos h12] at hev
    exact Or.inr ⟨_, _, _, copyDiffE_events env fromRef path _ _ packagedir _ ev hev⟩
  rw [if_neg h12] at hev
  by_cases h13 : substringBeforeNthChar path '/' 4 = FMD_FOLDER ++ "/workflows"
  · rw [if_pos h13] at hev
    exact Or.inr ⟨_, _, _, copyDiffE_events env fromRef path _ _ packagedir _ ev hev⟩
  rw [if_neg h13] at hev
  exact Or.inl (copyFileSyncE_shape env packagedir _ _ ev
    (by repeat first | exact startsWithS_append _ _ | apply startsWithS_append_right) hev)

theorem processChanged_events (env : Env) (fromRef packagedir : String) (dd : Option String)
    (path : String) (ev : FsEvent)
    (hev : ev ∈ (processChanged env fromRef packagedir dd path).1) :
    (∃ p, ev = FsEvent.mkdirRec p) ∨
    (∃ src dst, ev = FsEvent.copyFile src dst ∧ startsWithS dst (packagedir ++ "/") = true ∧
       (env.files src).isSome = true) ∨
    (∃ rootTagName requiredTagNames ddx,
       ev = FsEvent.copyDiff fromRef path rootTagName requiredTagNames packagedir ddx) := by
  simp only [processChanged] at hev
  have hmk2 : ∀ ev' ∈ (match dd with
      | some d => [FsEvent.mkdirRec (d ++ "/" ++ substringBeforeLast path '/')]
      | none => ([] : List FsEvent)), ∃ p, ev' = FsEvent.mkdirRec p := by
    cases dd with
    | some d => intro ev' h'; simp at h'; exact ⟨_, h'⟩
    | none => intro ev' h'; simp at h'
  have hstrat : ∀ ev' ∈ (strategyStep env fromRef packagedir dd path).1,
      (∃ p, ev' = FsEvent.mkdirRec p) ∨
      (∃ src dst, ev' = FsEvent.copyFile src dst ∧ startsWithS dst (packagedir ++ "/") = true ∧
         (env.files src).isSome = true) ∨
      (∃ rootTagName requiredTagNames ddx,
         ev' = FsEvent.copyDiff fromRef path rootTagName requiredTagNames packagedir ddx) :=
    fun ev' h' => Or.inr (strategyStep_events env fromRef packagedir dd path ev' h')
  cases hs : (strategyStep env fromRef packagedir dd path).2 with
  | some e =>
    rw [hs] at hev
    rcases List.mem_cons.mp hev with rfl | hev'
    · exact Or.inl ⟨_, rfl⟩
    · rcases List.mem_append.mp hev' with h' | h'
      · exact Or.inl (hmk2 ev h')
      · exact hstrat ev h'
  | none =>
    rw [hs] at hev
    by_cases hm : (env.files (path ++ "-meta.xml")).isSome = true
    · rw [if_pos hm] at hev
      rcases List.mem_cons.mp hev with rfl | hev'
      · exact Or.inl ⟨_, rfl⟩
      rcases List.mem_append.mp hev' with h' | h'
      · rcases List.mem_append.mp h' with h'' | h''
        · exact Or.inl (hmk2 ev h'')
        · exact hstrat ev h''
      · simp only [List.mem_singleton] at h'
        exact Or.inr (Or.inl ⟨path ++ "-meta.xml", packagedir ++ "/" ++ (path ++ "-meta.xml"), h',
          startsWithS_append (packagedir ++ "/") (path ++ "-meta.xml"), hm⟩)
    · rw [if_neg hm] at hev
      rcases List.mem_cons.mp hev with rfl | hev'
      · exact Or.inl ⟨_, rfl⟩
      rcases List.mem_append.mp hev' with h' | h'
      · exact Or.inl (hmk2 ev h')
      · exact hstrat ev h'

theorem processChanged_ok_eq (env : Env) (fromRef packagedir : String) (dd : Option String)
    (path : String) (hs : (strategyStep env fromRef packagedir dd path).2 = none) :
    processChanged env fromRef packagedir dd path =
      (FsEvent.mkdirRec (packagedir ++ "/" ++ substringBeforeLast path '/') ::
        (match dd with
          | some d => [FsEvent.mkdirRec (d ++ "/" ++ substringBeforeLast path '/')]
          | none => []) ++
        (strategyStep env fromRef packagedir dd path).1 ++
        (if (env.files (path ++ "-meta.xml")).isSome = true then
          [FsEvent.copyFile (path ++ "-meta.xml") (packagedir ++ "/" ++ (path ++ "-meta.xml"))]
        else []), none) := by
  simp only [processChanged, hs]
  by_cases hm : (env.files (path ++ "-meta.xml")).isSome = true
  · rw [if_pos hm, if_pos hm]
    cases dd <;> rfl
  · rw [if_neg hm, if_neg hm]
    cases dd <;> simp

/-! ## Claim theorems -/

/-- C6: for every `layoutAssignments` entry, the identity key returned by the
Identity Resolver is the `layout` field joined to the `recordType` field with
a "." separator when `recordType` is present (a nonempty value — the JS
truthiness the code tests), and the `layout` field alone when `recordType`
is absent. -/
theorem c6_layoutAssignments_identity (pa : LayoutAssignmentEntry) :
    (∀ rt, pa.recordType = some rt → rt ≠ "" →
      profileAccessNameMap.layoutAssignments pa = pa.layout ++ "." ++ rt) ∧
    (pa.recordType = none → profileAccessNameMap.layoutAssignments pa = pa.layout) := by
  constructor
  · intro rt h hne
    simp only [profileAccessNameMap.layoutAssignments, h]
    rw [if_neg hne, ← String.append_assoc]
  · intro h
    simp only [profileAccessNameMap.layoutAssignments, h, String.append_empty]

/-- Witness for C6 at concrete entries, with and without a record type. -/
theorem c6_layoutAssignments_identity_witness :
    profileAccessNameMap.layoutAssignments ⟨"Account-Layout", some "Business"⟩ =
      "Account-Layout" ++ "." ++ "Business" ∧
    profileAccessNameMap.layoutAssignments ⟨"Account-Layout", none⟩ = "Account-Layout" :=
  ⟨(c6_layoutAssignments_identity ⟨"Account-Layout", some "Business"⟩).1 "Business" rfl
      (by decide),
   (c6_layoutAssignments_identity ⟨"Account-Layout", none⟩).2 rfl⟩

/-- C7: for every path and content, after `writeXMLFile(path, content)` the
file at `path` consists of the fixed declaration line
`<?xml version="1.0" encoding="UTF-8"?>` followed by a newline followed by
`content`, regardless of any prior content of the file. -/
theorem c7_writeXMLFile_canonical (fsm : FsMap) (path content : String) :
    writeXMLFile fsm path content path =
      some ("<?xml version=\"1.0\" encoding=\"UTF-8\"?>" ++ "\n" ++ content) := by
  show (writeFileSyncAppend (writeFileSyncTrunc fsm path xmlDeclaration) path content) path = _
  simp only [writeFileSyncAppend, writeFileSyncTrunc, if_pos rfl]
  rfl

/-- C9: `profileAccessFilenamesCompare` returns only 1 or -1 and never 0; in
particular comparing any file name with itself returns -1, so the comparator
is not reflexive-consistent and the induced relation is not antisymmetric on
equal inputs. -/
theorem c9_compare_never_zero (fileName1 fileName2 : String) :
    (profileAccessFilenamesCompare fileName1 fileName2 = 1 ∨
      profileAccessFilenamesCompare fileName1 fileName2 = -1) ∧
    profileAccessFilenamesCompare fileName1 fileName2 ≠ 0 ∧
    profileAccessFilenamesCompare fileName1 fileName1 = -1 := by
  have key : ∃ r, profileAccessFilenamesCompare fileName1 fileName2 = r ∧ (r = 1 ∨ r = -1) := by
    simp only [profileAccessFilenamesCompare]
    split_ifs <;> first | exact ⟨1, rfl, Or.inl rfl⟩ | exact ⟨-1, rfl, Or.inr rfl⟩
  have h2 : profileAccessFilenamesCompare fileName1 fileName1 = -1 := by
    simp only [profileAccessFilenamesCompare]
    split_ifs <;> first | rfl | (exfalso; simp_all [jsLt_irrefl])
  obtain ⟨r, hr, hd⟩ := key
  have h1 : profileAccessFilenamesCompare fileName1 fileName2 = 1 ∨
      profileAccessFilenamesCompare fileName1 fileName2 = -1 := by
    rcases hd with rfl | rfl
    · exact Or.inl hr
    · exact Or.inr hr
  refine ⟨h1, ?_, h2⟩
  rcases h1 with h | h <;> rw [h] <;> decide

/-- C3: for layoutAssignments file-name comparisons — (a) different
dot-segment counts with equal layout names: the name with more segments
sorts after the one with fewer; (b) equal segment counts with unequal layout
names where one layout name is a strict prefix of the other: the prefix
sorts before the longer name. -/
theorem c3_layoutAssignments_compare (fileName1 fileName2 : String)
    (hacc : uncapitalizeFirstLetter (substringBefore fileName1 '.') = "layoutAssignments") :
    ((splitStr fileName1 '.').length ≠ (splitStr fileName2 '.').length →
      substringBefore (substringAfter fileName1 '.') '.' =
        substringBefore (substringAfter fileName2 '.') '.' →
      (((splitStr fileName2 '.').length < (splitStr fileName1 '.').length →
        profileAccessFilenamesCompare fileName1 fileName2 = 1) ∧
      ((splitStr fileName1 '.').length < (splitStr fileName2 '.').length →
        profileAccessFilenamesCompare fileName1 fileName2 = -1))) ∧
    ((splitStr fileName1 '.').length = (splitStr fileName2 '.').length →
      substringBefore (substringAfter fileName1 '.') '.' ≠
        substringBefore (substringAfter fileName2 '.') '.' →
      ((startsWithS (substringBefore (substringAfter fileName2 '.') '.')
          (substringBefore (substringAfter fileName1 '.') '.') = true →
        profileAccessFilenamesCompare fileName1 fileName2 = -1) ∧
      (startsWithS (substringBefore (substringAfter fileName1 '.') '.')
          (substringBefore (substringAfter fileName2 '.') '.') = true →
        profileAccessFilenamesCompare fileName1 fileName2 = 1))) := by
  constructor
  · intro hlen hL
    constructor
    · intro hgt
      simp only [profileAccessFilenamesCompare]
      rw [if_pos hacc, if_pos hlen, if_pos hL, if_pos hgt]
    · intro hlt
      have hngt : ¬ (splitStr fileName1 '.').length > (splitStr fileName2 '.').length := by
        omega
      simp only [profileAccessFilenamesCompare]
      rw [if_pos hacc, if_pos hlen, if_pos hL, if_neg hngt]
  · intro hlen hL
    have hno : ¬ (splitStr fileName1 '.').length ≠ (splitStr fileName2 '.').length := by
      simp [hlen]
    constructor
    · intro hpre
      have hp1 : (substringBefore (substringAfter fileName1 '.') '.').data <+:
          (substringBefore (substringAfter fileName2 '.') '.').data :=
        List.isPrefixOf_iff_prefix.mp hpre
      have hfalse : ¬ startsWithS (substringBefore (substringAfter fileName1 '.') '.')
          (substringBefore (substringAfter fileName2 '.') '.') = true := by
        intro hcontra
        have hp2 : (substringBefore (substringAfter fileName2 '.') '.').data <+:
            (substringBefore (substringAfter fileName1 '.') '.').data :=
          List.isPrefixOf_iff_prefix.mp hcontra
        exact hL (String.ext (hp1.eq_of_length (Nat.le_antisymm hp1.length_le hp2.length_le)))
      simp only [profileAccessFilenamesCompare]
      rw [if_pos hacc, if_neg hno, if_pos hL, if_neg hfalse, if_pos hpre]
    · intro hpre1
      simp only [profileAccessFilenamesCompare]
      rw [if_pos hacc, if_neg hno, if_pos hL, if_pos hpre1]

/-- Witness for C3: a depth tie-break (fewer segments sorts first) and a
strict-prefix tie-break (the prefix sorts first) at concrete file names. -/
theorem c3_layoutAssignments_compare_witness :
    profileAccessFilenamesCompare "layoutAssignments.A.x" "layoutAssignments.A.y.z" = -1 ∧
    profileAccessFilenamesCompare "layoutAssignments.A.x" "layoutAssignments.Ab.x" = -1 :=
  ⟨((c3_layoutAssignments_compare "layoutAssignments.A.x" "layoutAssignments.A.y.z"
      (by decide)).1 (by decide) (by decide)).2 (by decide),
   ((c3_layoutAssignments_compare "layoutAssignments.A.x" "layoutAssignments.Ab.x"
      (by decide)).2 (by decide) (by decide)).1 (by decide)⟩

theorem delta_events (env : Env) (fromRef toRef packagedir : String) (dd : Option String)
    (ev : FsEvent) (hev : ev ∈ (delta env fromRef toRef packagedir dd).1) :
    (∃ d, dd = some d ∧
      ev ∈ (runEach (processDeleted env fromRef d)
        (classify (env.gitDiff fromRef toRef)).2).1) ∨
    ev ∈ (runEach (processChanged env fromRef packagedir dd)
      (classify (env.gitDiff fromRef toRef)).1).1 := by
  cases dd with
  | none =>
    rw [delta_none_eq] at hev
    exact Or.inr hev
  | some d =>
    cases h2 : (runEach (processDeleted env fromRef d)
        (classify (env.gitDiff fromRef toRef)).2).2 with
    | some e =>
      rw [delta_some_err env fromRef toRef packagedir d e h2] at hev
      exact Or.inl ⟨d, rfl, hev⟩
    | none =>
      rw [delta_some_ok env fromRef toRef packagedir d h2] at hev
      rcases List.mem_append.mp hev with h | h
      · exact Or.inl ⟨d, rfl, h⟩
      · exact Or.inr h

/-- C10: a status line with fewer than two tab-separated fields, or whose
path field does not start with `force-app/main/default`, contributes to
neither the changed nor the deleted list; consequently the only writes of a
run are destructive-package writes `d/q` for classified deleted paths `q`
(which all lie under the managed folder), compound-diff calls for classified
changed paths, and copies into the change package — files outside those
output directories are never written. -/
theorem c10_outside_fmd_untouched (env : Env) (fromRef toRef packagedir : String)
    (dd : Option String) (line : String)
    (hline : (splitStr line '\t').length ≤ 1 ∨
      startsWithS ((splitStr line '\t').getD 1 "") FMD_FOLDER = false) :
    classifyLine line = ([], []) ∧
    (∀ p content, FsEvent.writeFile p content ∈ (delta env fromRef toRef packagedir dd).1 →
      ∃ d q, dd = some d ∧ q ∈ (classify (env.gitDiff fromRef toRef)).2 ∧
        startsWithS q FMD_FOLDER = true ∧ p = d ++ "/" ++ q) ∧
    (∀ fr p rt req pk ddx,
      FsEvent.copyDiff fr p rt req pk ddx ∈ (delta env fromRef toRef packagedir dd).1 →
      p ∈ (classify (env.gitDiff fromRef toRef)).1) ∧
    (∀ src dst, FsEvent.copyFile src dst ∈ (delta env fromRef toRef packagedir dd).1 →
      startsWithS dst (packagedir ++ "/") = true) := by
  refine ⟨?_, ?_, ?_, ?_⟩
  · simp only [classifyLine]
    rw [if_neg]
    rintro ⟨hgt, hsw⟩
    rcases hline with h | h
    · omega
    · rw [List.getD_eq_getElem?_getD] at hsw h
      rw [hsw] at h
      cases h
  · intro p content hmem
    rcases delta_events env fromRef toRef packagedir dd _ hmem with ⟨d, rfl, h⟩ | h
    · obtain ⟨q, hq, hq2⟩ := runEach_events _ _ _ h
      rcases processDeleted_events env fromRef d q _ hq2 with h' | ⟨c, h'⟩
      · cases h'
      · obtain ⟨l, hl, hl2⟩ := (classifyList_src (splitStr (env.gitDiff fromRef toRef) '\n')).2 q hq
        cases h'
        exact ⟨d, q, rfl, hq, classifyLine_deleted_fmd l q hl2, rfl⟩
    · obtain ⟨x, hx, hx2⟩ := runEach_events _ _ _ h
      rcases processChanged_events env fromRef packagedir dd x _ hx2 with ⟨p', h'⟩ | ⟨s, t, h', _, _⟩ |
        ⟨rt, req, ddx, h'⟩ <;> cases h'
  · intro fr p rt req pk ddx hmem
    rcases delta_events env fromRef toRef packagedir dd _ hmem with ⟨d, rfl, h⟩ | h
    · obtain ⟨q, hq, hq2⟩ := runEach_events _ _ _ h
      rcases processDeleted_events env fromRef d q _ hq2 with h' | ⟨c, h'⟩ <;> cases h'
    · obtain ⟨x, hx, hx2⟩ := runEach_events _ _ _ h
      rcases processChanged_events env fromRef packagedir dd x _ hx2 with ⟨p', h'⟩ | ⟨s, t, h', _, _⟩ |
        ⟨rt', req', ddx', h'⟩ <;> cases h'
      exact hx
  · intro src dst hmem
    rcases delta_events env fromRef toRef packagedir dd _ hmem with ⟨d, rfl, h⟩ | h
    · obtain ⟨q, hq, hq2⟩ := runEach_events _ _ _ h
      rcases processDeleted_events env fromRef d q _ hq2 with h' | ⟨c, h'⟩ <;> cases h'
    · obtain ⟨x, hx, hx2⟩ := runEach_events _ _ _ h
      rcases processChanged_events env fromRef packagedir dd x _ hx2 with ⟨p', h'⟩ | ⟨s, t, h', hsw, _⟩ |
        ⟨rt', req', ddx', h'⟩ <;> cases h'
      exact hsw

/-- Environment exhibiting C1's failure mode: two deleted managed paths where
the VCS lookup (`gitShow`) for the first one fails. -/
def envTwoDeletes : Env :=
  { gitDiff := fun _ _ =>
      "D\tforce-app/main/default/classes/A.cls\nD\tforce-app/main/default/classes/B.cls",
    gitShow := fun _ p =>
      if p = "force-app/main/default/classes/A.cls" then
        Except.error "fatal: path A not in rev"
      else Except.ok "B content",
    files := fun _ => none,
    readdir := fun _ => [],
    copyDiffErr := fun _ => none }

/-- C1 counterexample: with two deleted paths pending and the first one
failing its VCS lookup, the second (still classified, with a succeeding
lookup) is never written — the error HALTS processing of the remaining
paths — and the command still answers `success := true`, so no summary
failure reaches the caller. -/
theorem c1_counterexample :
    "force-app/main/default/classes/B.cls" ∈ (classify (envTwoDeletes.gitDiff "f" "t")).2 ∧
    envTwoDeletes.gitShow "f" "force-app/main/default/classes/B.cls" = Except.ok "B content" ∧
    (delta envTwoDeletes "f" "t" "pkg" (some "dest")).2 = some "fatal: path A not in rev" ∧
    (delta envTwoDeletes "f" "t" "pkg" (some "dest")).1 =
      [FsEvent.mkdirRec "dest/force-app/main/default/classes"] ∧
    (∀ content, FsEvent.writeFile "dest/force-app/main/default/classes/B.cls" content ∉
      (delta envTwoDeletes "f" "t" "pkg" (some "dest")).1) ∧
    (run envTwoDeletes "f" "t" "pkg" (some "dest")).2 =
      { success := true, loggedErrors := ["fatal: path A not in rev"] } := by
  refine ⟨by decide, rfl, by decide, by decide, ?_, by decide⟩
  intro content hmem
  have htrace : (delta envTwoDeletes "f" "t" "pkg" (some "dest")).1 =
      [FsEvent.mkdirRec "dest/force-app/main/default/classes"] := by decide
  rw [htrace] at hmem
  simp at hmem

/-- C1 amended: an error raised while processing one path is caught at the
command boundary (`run`), logged there, and ABORTS processing of the
remaining paths; the command reports `success := true` to its caller whether
or not a path failed. -/
theorem c1_amended_error_handling (env : Env) (fromRef toRef packagedir : String)
    (dd : Option String) :
    (run env fromRef toRef packagedir dd).2.success = true ∧
    (∀ e, (delta env fromRef toRef packagedir dd).2 = some e →
      (run env fromRef toRef packagedir dd).2.loggedErrors = [e]) ∧
    (∀ (f : String → Eff) (x : String) (xs : List String) (e : String),
      (f x).2 = some e → runEach f (x :: xs) = ((f x).1, some e)) := by
  refine ⟨?_, ?_, fun f x xs e he => runEach_cons_err f x xs e he⟩
  · simp only [run]
    cases h : (delta env fromRef toRef packagedir dd).2 <;> rfl
  · intro e he
    simp only [run, he]

/-- Witness for C1's amended claim at the concrete failing environment. -/
theorem c1_amended_error_handling_witness :
    (delta envTwoDeletes "f" "t" "pkg" (some "dest")).2 = some "fatal: path A not in rev" ∧
    (run envTwoDeletes "f" "t" "pkg" (some "dest")).2.loggedErrors =
      ["fatal: path A not in rev"] :=
  ⟨by decide,
   (c1_amended_error_handling envTwoDeletes "f" "t" "pkg" (some "dest")).2.1
     "fatal: path A not in rev" (by decide)⟩

theorem processChanged_head (env : Env) (fromRef packagedir : String) (dd : Option String)
    (path : String) :
    FsEvent.mkdirRec (packagedir ++ "/" ++ substringBeforeLast path '/') ∈
      (processChanged env fromRef packagedir dd path).1 := by
  simp only [processChanged]
  cases hs : (strategyStep env fromRef packagedir dd path).2 with
  | some e => simp
  | none =>
    by_cases hm : (env.files (path ++ "-meta.xml")).isSome = true
    · rw [if_pos hm]; simp
    · rw [if_neg hm]; simp

theorem classifyLine_rename (line st oldPath newPath : String)
    (hparts : splitStr line '\t' = [st, oldPath, newPath])
    (hR : st.data.head? = some 'R')
    (hfmd : startsWithS oldPath FMD_FOLDER = true) :
    classifyLine line = ([newPath], [oldPath]) := by
  obtain ⟨rest, hst⟩ : ∃ rest, st.data = 'R' :: rest := by
    cases hst : st.data with
    | nil => rw [hst] at hR; cases hR
    | cons c rest =>
      rw [hst] at hR
      simp at hR
      exact ⟨rest, by rw [hR]⟩
  simp only [classifyLine, hparts]
  rw [if_pos ⟨by simp, by simpa using hfmd⟩]
  simp only [List.getD_cons_zero, List.getD_cons_succ]
  rw [hst]
  rfl

theorem classifyLine_delete (line st path : String)
    (hparts : splitStr line '\t' = [st, path])
    (hD : st.data.head? = some 'D')
    (hfmd : startsWithS path FMD_FOLDER = true) :
    classifyLine line = ([], [path]) := by
  obtain ⟨rest, hst⟩ : ∃ rest, st.data = 'D' :: rest := by
    cases hst : st.data with
    | nil => rw [hst] at hD; cases hD
    | cons c rest =>
      rw [hst] at hD
      simp at hD
      exact ⟨rest, by rw [hD]⟩
  simp only [classifyLine, hparts]
  rw [if_pos ⟨by simp, by simpa using hfmd⟩]
  simp only [List.getD_cons_zero, List.getD_cons_succ]
  rw [hst]
  rfl

/-- C4: a rename status line (first field starting with 'R') whose old path
lies under the managed folder is treated as a deletion of the old path plus
a normal change of the new path: the old path joins the deleted list (and,
when a destructive directory is given and the run does not fail, the old
revision's content is written under the destructive directory at the old
path) and the new path joins the changed list and is materialized into the
change package by the changed-path loop. -/
theorem c4_rename_handling (env : Env) (fromRef toRef packagedir : String)
    (dd : Option String) (line st oldPath newPath : String)
    (hline : line ∈ splitStr (env.gitDiff fromRef toRef) '\n')
    (hparts : splitStr line '\t' = [st, oldPath, newPath])
    (hR : st.data.head? = some 'R')
    (hfmd : startsWithS oldPath FMD_FOLDER = true) :
    oldPath ∈ (classify (env.gitDiff fromRef toRef)).2 ∧
    newPath ∈ (classify (env.gitDiff fromRef toRef)).1 ∧
    (∀ d content, dd = some d → env.gitShow fromRef oldPath = Except.ok content →
      (delta env fromRef toRef packagedir dd).2 = none →
      FsEvent.writeFile (d ++ "/" ++ oldPath) content ∈
        (delta env fromRef toRef packagedir dd).1) ∧
    ((delta env fromRef toRef packagedir dd).2 = none →
      (∃ pre post, (delta env fromRef toRef packagedir dd).1 =
        pre ++ ((processChanged env fromRef packagedir dd newPath).1 ++ post)) ∧
      FsEvent.mkdirRec (packagedir ++ "/" ++ substringBeforeLast newPath '/') ∈
        (delta env fromRef toRef packagedir dd).1) := by
  have hcl := classifyLine_rename line st oldPath newPath hparts hR hfmd
  have hmem := classifyList_mem (splitStr (env.gitDiff fromRef toRef) '\n') line hline
  have hold : oldPath ∈ (classify (env.gitDiff fromRef toRef)).2 := by
    apply hmem.2
    rw [hcl]
    simp
  have hnew : newPath ∈ (classify (env.gitDiff fromRef toRef)).1 := by
    apply hmem.1
    rw [hcl]
    simp
  refine ⟨hold, hnew, ?_, ?_⟩
  · rintro d content rfl hshow hok
    have h2 := delta_ok_phase2 env fromRef toRef packagedir d hok
    obtain ⟨hfok, pre, post, heq⟩ :=
      runEach_ok_mem (processDeleted env fromRef d)
        (classify (env.gitDiff fromRef toRef)).2 h2 oldPath hold
    rw [delta_some_ok env fromRef toRef packagedir d h2]
    apply List.mem_append.mpr (Or.inl ?_)
    rw [heq, processDeleted_ok env fromRef d oldPath content hshow]
    simp
  · intro hok
    have h3 := delta_ok_phase3 env fromRef toRef packagedir dd hok
    obtain ⟨hfok, pre, post, heq⟩ :=
      runEach_ok_mem (processChanged env fromRef packagedir dd)
        (classify (env.gitDiff fromRef toRef)).1 h3 newPath hnew
    have hmk := processChanged_head env fromRef packagedir dd newPath
    cases dd with
    | none =>
      rw [delta_none_eq]
      constructor
      · exact ⟨pre, post, heq⟩
      · rw [heq]
        simp only [List.mem_append]
        exact Or.inr (Or.inl hmk)
    | some d =>
      have h2 := delta_ok_phase2 env fromRef toRef packagedir d hok
      rw [delta_some_ok env fromRef toRef packagedir d h2]
      constructor
      · refine ⟨(runEach (processDeleted env fromRef d)
          (classify (env.gitDiff fromRef toRef)).2).1 ++ pre, post, ?_⟩
        rw [heq]
        simp [List.append_assoc]
      · simp only [List.mem_append]
        right
        rw [heq]
        simp only [List.mem_append]
        exact Or.inr (Or.inl hmk)

/-- Environment with one rename line for the C4 witness. -/
def envRename : Env :=
  { gitDiff := fun _ _ =>
      "R100\tforce-app/main/default/classes/A.cls\tforce-app/main/default/classes/B.cls",
    gitShow := fun _ _ => Except.ok "old A content",
    files := fun _ => some "content",
    readdir := fun _ => [],
    copyDiffErr := fun _ => none }

/-- Witness for C4 at a concrete rename line and run. -/
theorem c4_rename_handling_witness :
    "force-app/main/default/classes/A.cls" ∈ (classify (envRename.gitDiff "f" "t")).2 ∧
    "force-app/main/default/classes/B.cls" ∈ (classify (envRename.gitDiff "f" "t")).1 ∧
    FsEvent.writeFile ("dest" ++ "/" ++ "force-app/main/default/classes/A.cls")
        "old A content" ∈ (delta envRename "f" "t" "pkg" (some "dest")).1 := by
  have h := c4_rename_handling envRename "f" "t" "pkg" (some "dest")
    "R100\tforce-app/main/default/classes/A.cls\tforce-app/main/default/classes/B.cls"
    "R100" "force-app/main/default/classes/A.cls" "force-app/main/default/classes/B.cls"
    (by decide) (by decide) (by decide) (by decide)
  exact ⟨h.1, h.2.1, h.2.2.1 "dest" "old A content" rfl rfl (by decide)⟩

/-- C5: a deletion status line (first field starting with 'D') whose path
lies under the managed folder causes no diffing for that path: it joins only
the deleted list; the destructive loop emits exactly a recursive mkdir plus
one verbatim write of the old revision's content (from `gitShow` at the
`from` ref) at the same relative path under the destructive directory; and
when the path is not also classified as changed, no compound-diff call for
it ever appears in the run. -/
theorem c5_deletion_destructive (env : Env) (fromRef toRef packagedir : String)
    (line st path : String)
    (hline : line ∈ splitStr (env.gitDiff fromRef toRef) '\n')
    (hparts : splitStr line '\t' = [st, path])
    (hD : st.data.head? = some 'D')
    (hfmd : startsWithS path FMD_FOLDER = true) :
    classifyLine line = ([], [path]) ∧
    path ∈ (classify (env.gitDiff fromRef toRef)).2 ∧
    (∀ d content, env.gitShow fromRef path = Except.ok content →
      processDeleted env fromRef d path =
        ([FsEvent.mkdirRec (d ++ "/" ++ substringBeforeLast path '/'),
          FsEvent.writeFile (d ++ "/" ++ path) content], none)) ∧
    (∀ d content, env.gitShow fromRef path = Except.ok content →
      (delta env fromRef toRef packagedir (some d)).2 = none →
      FsEvent.writeFile (d ++ "/" ++ path) content ∈
        (delta env fromRef toRef packagedir (some d)).1) ∧
    (path ∉ (classify (env.gitDiff fromRef toRef)).1 →
      ∀ dd fr rt req pk ddx, FsEvent.copyDiff fr path rt req pk ddx ∉
        (delta env fromRef toRef packagedir dd).1) := by
  have hcl := classifyLine_delete line st path hparts hD hfmd
  have hmem := classifyList_mem (splitStr (env.gitDiff fromRef toRef) '\n') line hline
  have hdel : path ∈ (classify (env.gitDiff fromRef toRef)).2 := by
    apply hmem.2
    rw [hcl]
    simp
  refine ⟨hcl, hdel, ?_, ?_, ?_⟩
  · intro d content hshow
    exact processDeleted_ok env fromRef d path content hshow
  · intro d content hshow hok
    have h2 := delta_ok_phase2 env fromRef toRef packagedir d hok
    obtain ⟨hfok, pre, post, heq⟩ :=
      runEach_ok_mem (processDeleted env fromRef d)
        (classify (env.gitDiff fromRef toRef)).2 h2 path hdel
    rw [delta_some_ok env fromRef toRef packagedir d h2]
    apply List.mem_append.mpr (Or.inl ?_)
    rw [heq, processDeleted_ok env fromRef d path content hshow]
    simp
  · intro hnc dd fr rt req pk ddx hmem'
    rcases delta_events env fromRef toRef packagedir dd _ hmem' with ⟨d, rfl, h⟩ | h
    · obtain ⟨q, hq, hq2⟩ := runEach_events _ _ _ h
      rcases processDeleted_events env fromRef d q _ hq2 with h' | ⟨c, h'⟩ <;> cases h'
    · obtain ⟨x, hx, hx2⟩ := runEach_events _ _ _ h
      rcases processChanged_events env fromRef packagedir dd x _ hx2 with ⟨p', h'⟩ |
        ⟨s, t, h', _, _⟩ | ⟨rt', req', ddx', h'⟩ <;> cases h'
      exact hnc hx

/-- Environment with one deletion line for the C5 witness. -/
def envDelete : Env :=
  { gitDiff := fun _ _ => "D\tforce-app/main/default/objects/Account/fields/X.field-meta.xml",
    gitShow := fun _ _ => Except.ok "old field content",
    files := fun _ => some "c",
    readdir := fun _ => [],
    copyDiffErr := fun _ => none }

/-- Witness for C5 at a concrete deletion line and run. -/
theorem c5_deletion_destructive_witness :
    classifyLine "D\tforce-app/main/default/objects/Account/fields/X.field-meta.xml" =
      ([], ["force-app/main/default/objects/Account/fields/X.field-meta.xml"]) ∧
    FsEvent.writeFile
        ("dest" ++ "/" ++ "force-app/main/default/objects/Account/fields/X.field-meta.xml")
        "old field content" ∈ (delta envDelete "f" "t" "pkg" (some "dest")).1 := by
  have h := c5_deletion_destructive envDelete "f" "t" "pkg"
    "D\tforce-app/main/default/objects/Account/fields/X.field-meta.xml"
    "D" "force-app/main/default/objects/Account/fields/X.field-meta.xml"
    (by decide) (by decide) (by decide) (by decide)
  exact ⟨h.1, h.2.2.2.1 "dest" "old field content" rfl (by decide)⟩

/-- C8: for every changed path whose strategy step succeeded, the companion
`-meta.xml` descriptor at the same path is copied verbatim into the change
package when it exists; when it does not exist the copy is skipped, no error
is raised for that path, and no copy of that descriptor happens at all; and
at the whole-run level the copy lands in the delta trace. -/
theorem c8_meta_copy (env : Env) (fromRef packagedir : String) (dd : Option String)
    (path : String)
    (hs : (strategyStep env fromRef packagedir dd path).2 = none) :
    (processChanged env fromRef packagedir dd path).2 = none ∧
    ((env.files (path ++ "-meta.xml")).isSome = true →
      FsEvent.copyFile (path ++ "-meta.xml") (packagedir ++ "/" ++ (path ++ "-meta.xml")) ∈
        (processChanged env fromRef packagedir dd path).1) ∧
    (env.files (path ++ "-meta.xml") = none →
      (processChanged env fromRef packagedir dd path).2 = none ∧
      (∀ src dst, FsEvent.copyFile src dst ∈ (processChanged env fromRef packagedir dd path).1 →
        src ≠ path ++ "-meta.xml")) ∧
    (∀ toRef, (delta env fromRef toRef packagedir dd).2 = none →
      path ∈ (classify (env.gitDiff fromRef toRef)).1 →
      (env.files (path ++ "-meta.xml")).isSome = true →
      FsEvent.copyFile (path ++ "-meta.xml") (packagedir ++ "/" ++ (path ++ "-meta.xml")) ∈
        (delta env fromRef toRef packagedir dd).1) := by
  have hchar := processChanged_ok_eq env fromRef packagedir dd path hs
  have hok : (processChanged env fromRef packagedir dd path).2 = none := by rw [hchar]
  have hmc : (env.files (path ++ "-meta.xml")).isSome = true →
      FsEvent.copyFile (path ++ "-meta.xml") (packagedir ++ "/" ++ (path ++ "-meta.xml")) ∈
        (processChanged env fromRef packagedir dd path).1 := by
    intro hm
    rw [hchar]
    simp [hm]
  refine ⟨hok, hmc, ?_, ?_⟩
  · intro hnone
    refine ⟨hok, ?_⟩
    intro src dst hmem' heqsrc
    rcases processChanged_events env fromRef packagedir dd path _ hmem' with ⟨p', h'⟩ |
      ⟨s, t, h', _, hsome⟩ | ⟨rt', req', ddx', h'⟩ <;> cases h'
    rw [heqsrc, hnone] at hsome
    cases hsome
  · intro toRef hdok hch hm
    have h3 := delta_ok_phase3 env fromRef toRef packagedir dd hdok
    obtain ⟨hfok, pre, post, heq⟩ :=
      runEach_ok_mem (processChanged env fromRef packagedir dd)
        (classify (env.gitDiff fromRef toRef)).1 h3 path hch
    have hin : FsEvent.copyFile (path ++ "-meta.xml")
        (packagedir ++ "/" ++ (path ++ "-meta.xml")) ∈
        (runEach (processChanged env fromRef packagedir dd)
          (classify (env.gitDiff fromRef toRef)).1).1 := by
      rw [heq]
      simp only [List.mem_append]
      exact Or.inr (Or.inl (hmc hm))
    cases dd with
    | none =>
      rw [delta_none_eq]
      exact hin
    | some d =>
      have h2 := delta_ok_phase2 env fromRef toRef packagedir d hdok
      rw [delta_some_ok env fromRef toRef packagedir d h2]
      exact List.mem_append.mpr (Or.inr hin)

/-- Environment for the C8 witness: the changed class file exists, and only
its own companion descriptor exists. -/
def envMetaMixed : Env :=
  { gitDiff := fun _ _ => "M\tforce-app/main/default/classes/A.cls",
    gitShow := fun _ _ => Except.ok "content",
    files := fun p =>
      if p = "force-app/main/default/classes/A.cls" then some "class body"
      else if p = "force-app/main/default/classes/A.cls-meta.xml" then some "meta body"
      else if p = "force-app/main/default/classes/B.cls" then some "class body B"
      else none,
    readdir := fun _ => [],
    copyDiffErr := fun _ => none }

/-- Witness for C8: the descriptor copy happens for the path that has one,
and a path without one is processed without error and without the copy. -/
theorem c8_meta_copy_witness :
    FsEvent.copyFile ("force-app/main/default/classes/A.cls" ++ "-meta.xml")
        ("pkg" ++ "/" ++ ("force-app/main/default/classes/A.cls" ++ "-meta.xml")) ∈
      (processChanged envMetaMixed "f" "pkg" none
        "force-app/main/default/classes/A.cls").1 ∧
    (processChanged envMetaMixed "f" "pkg" none "force-app/main/default/classes/B.cls").2 =
      none ∧
    (∀ src dst, FsEvent.copyFile src dst ∈
        (processChanged envMetaMixed "f" "pkg" none "force-app/main/default/classes/B.cls").1 →
      src ≠ "force-app/main/default/classes/B.cls" ++ "-meta.xml") :=
  ⟨(c8_meta_copy envMetaMixed "f" "pkg" none "force-app/main/default/classes/A.cls"
      (by decide)).2.1 (by decide),
   ((c8_meta_copy envMetaMixed "f" "pkg" none "force-app/main/default/classes/B.cls"
      (by decide)).2.2.1 (by decide)).1,
   ((c8_meta_copy envMetaMixed "f" "pkg" none "force-app/main/default/classes/B.cls"
      (by decide)).2.2.1 (by decide)).2⟩

/-- A small concrete environment with a managed change, an unmanaged change
and a malformed line, for the C10 witness. -/
def envSmall : Env :=
  { gitDiff := fun _ _ =>
      "M\tforce-app/main/default/classes/A.cls\nM\tdocs/readme.md\nnot-a-diff-line",
    gitShow := fun _ _ => Except.ok "old content",
    files := fun _ => some "file content",
    readdir := fun _ => [],
    copyDiffErr := fun _ => none }

/-- Witness for C10 at a tab-free line and a concrete run. -/
theorem c10_outside_fmd_untouched_witness :
    ((splitStr "docs/readme.md" '\t').length ≤ 1 ∨
      startsWithS ((splitStr "docs/readme.md" '\t').getD 1 "") FMD_FOLDER = false) ∧
    classifyLine "docs/readme.md" = ([], []) ∧
    (∀ src dst, FsEvent.copyFile src dst ∈ (delta envSmall "f" "t" "pkg" (some "dest")).1 →
      startsWithS dst ("pkg" ++ "/") = true) :=
  ⟨Or.inl (by decide),
   (c10_outside_fmd_untouched envSmall "f" "t" "pkg" (some "dest") "docs/readme.md"
      (Or.inl (by decide))).1,
   (c10_outside_fmd_untouched envSmall "f" "t" "pkg" (some "dest") "docs/readme.md"
      (Or.inl (by decide))).2.2.2⟩

/-! ## Lemmas for the normalized-IP ordering claim -/

theorem digit_toNat_bounds (c : Char) (h : c.isDigit = true) :
    48 ≤ c.toNat ∧ c.toNat ≤ 57 := by
  simp [Char.isDigit] at h
  obtain ⟨h1, h2⟩ := h
  rw [UInt32.le_def, BitVec.le_def] at h1 h2
  exact ⟨h1, h2⟩

theorem charLt_iff_toNat (a b : Char) : a < b ↔ a.toNat < b.toNat := by
  rw [Char.lt_def, UInt32.lt_def, BitVec.lt_def]
  rfl

theorem charLe_iff_toNat (a b : Char) : a ≤ b ↔ a.toNat ≤ b.toNat := by
  rw [Char.le_def, UInt32.le_def, BitVec.le_def]
  rfl

theorem charEq_iff_toNat (a b : Char) : a = b ↔ a.toNat = b.toNat := by
  constructor
  · intro h
    rw [h]
  · intro h
    exact le_antisymm ((charLe_iff_toNat a b).mpr h.le) ((charLe_iff_toNat b a).mpr h.ge)

theorem lexConsIff {α : Type} (r : α → α → Prop) (a b : α) (l₁ l₂ : List α) :
    List.Lex r (a :: l₁) (b :: l₂) ↔ r a b ∨ (a = b ∧ List.Lex r l₁ l₂) := by
  constructor
  · intro h
    cases h with
    | cons h => exact Or.inr ⟨rfl, h⟩
    | rel h => exact Or.inl h
  · rintro (h | ⟨rfl, h⟩)
    · exact List.Lex.rel h
    · exact List.Lex.cons h

/-- Character-list rendering of `joinChar '.'`, for induction. -/
def joinDotL : List (List Char) → List Char
  | [] => []
  | [p] => p
  | p :: q :: ps => p ++ '.' :: joinDotL (q :: ps)

theorem joinChar_data (parts : List String) :
    (joinChar '.' parts).data = joinDotL (parts.map String.data) := by
  match parts with
  | [] => rfl
  | [p] => rfl
  | p :: q :: ps =>
    show (p ++ String.mk ['.'] ++ joinChar '.' (q :: ps)).data = _
    rw [String.data_append, String.data_append]
    show p.data ++ ['.'] ++ (joinChar '.' (q :: ps)).data = _
    rw [joinChar_data (q :: ps)]
    simp [joinDotL]

/-- The dot-separated tail of a joined block list. -/
def dotTail : List (List Char) → List Char
  | [] => []
  | q :: qs => '.' :: joinDotL (q :: qs)

theorem joinDotL_cons (v : List Char) (vs : List (List Char)) :
    joinDotL (v :: vs) = v ++ dotTail vs := by
  cases vs with
  | nil => simp [joinDotL, dotTail]
  | cons q qs => rfl

theorem strVal_replicate_zero (k : Nat) :
    List.foldl (fun acc c => acc * 10 + (c.toNat - 48)) 0 (List.replicate k '0') = 0 := by
  induction k with
  | zero => rfl
  | succ n ih => simpa [List.replicate_succ] using ih

theorem strVal_pad (p : List Char) :
    strVal (List.replicate (3 - p.length) '0' ++ p) = strVal p := by
  unfold strVal
  rw [List.foldl_append, strVal_replicate_zero]

theorem padStart_data (p : String) :
    (padStart p 3 '0').data = List.replicate (3 - p.data.length) '0' ++ p.data := rfl

theorem isNumeral3_block (p : String) (hp : isNumeral3 p = true) :
    (padStart p 3 '0').data.length = 3 ∧
    (∀ c ∈ (padStart p 3 '0').data, c.isDigit = true) ∧
    strVal (padStart p 3 '0').data = strVal p.data := by
  have hlen : p.data.length ≤ 3 := by
    have h := hp
    simp only [isNumeral3, Bool.and_eq_true, decide_eq_true_eq] at h
    exact h.1.2
  have hdig : ∀ c ∈ p.data, c.isDigit = true := by
    have h := hp
    simp only [isNumeral3, Bool.and_eq_true, List.all_eq_true] at h
    exact h.2
  refine ⟨?_, ?_, ?_⟩
  · rw [padStart_data, List.length_append, List.length_replicate]
    omega
  · intro c hc
    rw [padStart_data] at hc
    rcases List.mem_append.mp hc with h | h
    · rw [List.eq_of_mem_replicate h]
      decide
    · exact hdig c h
  · rw [padStart_data]
    exact strVal_pad p.data

theorem block_lex_iff_val (u v : List Char)
    (hu3 : u.length = 3) (hv3 : v.length = 3)
    (hud : ∀ c ∈ u, c.isDigit = true) (hvd : ∀ c ∈ v, c.isDigit = true) :
    (List.Lex (· < ·) u v ↔ strVal u < strVal v) ∧ (u = v ↔ strVal u = strVal v) := by
  obtain ⟨a, b, c, rfl⟩ := List.length_eq_three.mp hu3
  obtain ⟨d, e, f, rfl⟩ := List.length_eq_three.mp hv3
  obtain ⟨ha1, ha2⟩ := digit_toNat_bounds a (hud a (by simp))
  obtain ⟨hb1, hb2⟩ := digit_toNat_bounds b (hud b (by simp))
  obtain ⟨hc1, hc2⟩ := digit_toNat_bounds c (hud c (by simp))
  obtain ⟨hd1, hd2⟩ := digit_toNat_bounds d (hvd d (by simp))
  obtain ⟨he1, he2⟩ := digit_toNat_bounds e (hvd e (by simp))
  obtain ⟨hf1, hf2⟩ := digit_toNat_bounds f (hvd f (by simp))
  have hlex : List.Lex (· < ·) [a, b, c] [d, e, f] ↔
      a.toNat < d.toNat ∨ (a.toNat = d.toNat ∧
        (b.toNat < e.toNat ∨ (b.toNat = e.toNat ∧ c.toNat < f.toNat))) := by
    rw [lexConsIff, lexConsIff, lexConsIff]
    rw [charLt_iff_toNat, charLt_iff_toNat, charLt_iff_toNat,
      charEq_iff_toNat, charEq_iff_toNat]
    have : ¬ List.Lex (fun x1 x2 => x1 < x2) ([] : List Char) [] :=
      List.Lex.not_nil_right _ _
    tauto
  have heq : ([a, b, c] = [d, e, f]) ↔
      (a.toNat = d.toNat ∧ b.toNat = e.toNat ∧ c.toNat = f.toNat) := by
    simp only [List.cons.injEq, and_true]
    rw [charEq_iff_toNat a d, charEq_iff_toNat b e, charEq_iff_toNat c f]
  have hvalu : strVal [a, b, c] =
      ((0 * 10 + (a.toNat - 48)) * 10 + (b.toNat - 48)) * 10 + (c.toNat - 48) := rfl
  have hvalv : strVal [d, e, f] =
      ((0 * 10 + (d.toNat - 48)) * 10 + (e.toNat - 48)) * 10 + (f.toNat - 48) := rfl
  constructor
  · rw [hlex, hvalu, hvalv]
    omega
  · rw [heq, hvalu, hvalv]
    omega

theorem lex_append_left_iff (w X Y : List Char) :
    List.Lex (· < ·) (w ++ X) (w ++ Y) ↔ List.Lex (· < ·) X Y := by
  induction w with
  | nil => rfl
  | cons a w' ih =>
    show List.Lex (· < ·) (a :: (w' ++ X)) (a :: (w' ++ Y)) ↔ _
    rw [List.Lex.cons_iff]
    exact ih

theorem lex_append_of_ne (u : List Char) :
    ∀ (v X Y : List Char), u.length = v.length → u ≠ v →
      (List.Lex (· < ·) (u ++ X) (v ++ Y) ↔ List.Lex (· < ·) u v) := by
  induction u with
  | nil =>
    intro v X Y hlen hne
    cases v with
    | nil => exact absurd rfl hne
    | cons b v' => simp at hlen
  | cons a u' ih =>
    intro v X Y hlen hne
    cases v with
    | nil => simp at hlen
    | cons b v' =>
      rcases lt_trichotomy a b with hab | hab | hab
      · constructor
        · intro _
          exact List.Lex.rel hab
        · intro _
          exact List.Lex.rel hab
      · subst hab
        have hne' : u' ≠ v' := by
          intro h
          exact hne (by rw [h])
        have hlen' : u'.length = v'.length := by simpa using hlen
        show List.Lex (· < ·) (a :: (u' ++ X)) (a :: (v' ++ Y)) ↔ _
        rw [List.Lex.cons_iff, List.Lex.cons_iff]
        exact ih v' X Y hlen' hne'
      · constructor
        · intro h
          rcases (lexConsIff _ _ _ _ _).mp h with h' | ⟨rfl, h'⟩
          · exact absurd hab (lt_asymm h')
          · exact absurd hab (lt_irrefl a)
        · intro h
          rcases (lexConsIff _ _ _ _ _).mp h with h' | ⟨rfl, h'⟩
          · exact absurd hab (lt_asymm h')
          · exact absurd hab (lt_irrefl a)

theorem joinDotL_lex (us : List (List Char)) :
    ∀ (vs : List (List Char)),
      (∀ u ∈ us, u.length = 3) → (∀ v ∈ vs, v.length = 3) →
      (List.Lex (· < ·) (joinDotL us) (joinDotL vs) ↔
        List.Lex (fun u v => List.Lex (· < ·) u v) us vs) := by
  induction us with
  | nil =>
    intro vs hu hv
    cases vs with
    | nil => simp [joinDotL]
    | cons v vs' =>
      obtain ⟨c1, c2, c3, hveq⟩ := List.length_eq_three.mp (hv v (by simp))
      rw [joinDotL_cons, hveq]
      constructor
      · intro _
        exact List.Lex.nil
      · intro _
        exact List.Lex.nil
  | cons u us' ih =>
    intro vs hu hv
    cases vs with
    | nil =>
      rw [joinDotL_cons]
      simp [joinDotL]
    | cons v vs' =>
      rw [joinDotL_cons, joinDotL_cons]
      have hu3 := hu u (by simp)
      have hv3 := hv v (by simp)
      by_cases huv : u = v
      · subst huv
        rw [lex_append_left_iff]
        have hrhs : List.Lex (fun u v => List.Lex (· < ·) u v) (u :: us') (u :: vs') ↔
            List.Lex (fun u v => List.Lex (· < ·) u v) us' vs' := by
          rw [lexConsIff]
          constructor
          · rintro (h | ⟨_, h⟩)
            · exact absurd h (by
                intro hc
                exact (List.Lex.isAsymm (· < ·)).asymm _ _ hc hc)
            · exact h
          · intro h
            exact Or.inr ⟨rfl, h⟩
        rw [hrhs]
        cases us' with
        | nil =>
          cases vs' with
          | nil => simp [dotTail]
          | cons q qs =>
            simp only [dotTail]
            constructor
            · intro _
              exact List.Lex.nil
            · intro _
              exact List.Lex.nil
        | cons p ps =>
          cases vs' with
          | nil =>
            simp only [dotTail]
            constructor
            · intro h
              exact absurd h (List.Lex.not_nil_right _ _)
            · intro h
              exact absurd h (List.Lex.not_nil_right _ _)
          | cons q qs =>
            simp only [dotTail]
            rw [List.Lex.cons_iff]
            exact ih (q :: qs) (fun x hx => hu x (by simp [hx])) (fun x hx => hv x (by simp [hx]))
      · rw [lex_append_of_ne u v (dotTail us') (dotTail vs') (by rw [hu3, hv3]) huv]
        rw [lexConsIff]
        constructor
        · intro h
          exact Or.inl h
        · rintro (h | ⟨h, _⟩)
          · exact h
          · exact absurd h huv

theorem joinDotL_eq_iff (us : List (List Char)) :
    ∀ (vs : List (List Char)),
      (∀ u ∈ us, u.length = 3) → (∀ v ∈ vs, v.length = 3) →
      (joinDotL us = joinDotL vs ↔ us = vs) := by
  induction us with
  | nil =>
    intro vs hu hv
    cases vs with
    | nil => simp
    | cons v vs' =>
      obtain ⟨c1, c2, c3, hveq⟩ := List.length_eq_three.mp (hv v (by simp))
      rw [joinDotL_cons, hveq]
      show ([] : List Char) = c1 :: c2 :: c3 :: ([] ++ dotTail vs') ↔ _
      simp
  | cons u us' ih =>
    intro vs hu hv
    cases vs with
    | nil =>
      obtain ⟨c1, c2, c3, hueq⟩ := List.length_eq_three.mp (hu u (by simp))
      rw [joinDotL_cons, hueq]
      show c1 :: c2 :: c3 :: ([] ++ dotTail us') = ([] : List Char) ↔ _
      simp
    | cons v vs' =>
      rw [joinDotL_cons, joinDotL_cons]
      have hu3 := hu u (by simp)
      have hv3 := hv v (by simp)
      constructor
      · intro h
        obtain ⟨huv, htail⟩ := List.append_inj h (by rw [hu3, hv3])
        subst huv
        have htails : us' = vs' := by
          cases us' with
          | nil =>
            cases vs' with
            | nil => rfl
            | cons q qs => simp [dotTail] at htail
          | cons p ps =>
            cases vs' with
            | nil => simp [dotTail] at htail
            | cons q qs =>
              simp only [dotTail, List.cons.injEq, true_and] at htail
              exact (ih (q :: qs) (fun x hx => hu x (by simp [hx]))
                (fun x hx => hv x (by simp [hx]))).mp htail
        rw [htails]
      · intro h
        injection h with h1 h2
        rw [h1, h2]

theorem blocks_lex_iff_vals (us : List (List Char)) :
    ∀ (vs : List (List Char)),
      (∀ u ∈ us, u.length = 3 ∧ ∀ c ∈ u, c.isDigit = true) →
      (∀ v ∈ vs, v.length = 3 ∧ ∀ c ∈ v, c.isDigit = true) →
      ((List.Lex (fun u v => List.Lex (· < ·) u v) us vs ↔
        List.Lex (· < ·) (us.map strVal) (vs.map strVal)) ∧
       (us = vs ↔ us.map strVal = vs.map strVal)) := by
  induction us with
  | nil =>
    intro vs _ _
    cases vs with
    | nil => simp
    | cons v vs' =>
      refine ⟨?_, by simp⟩
      simp only [List.map_cons, List.map_nil]
      exact ⟨fun _ => List.Lex.nil, fun _ => List.Lex.nil⟩
  | cons u us' ih =>
    intro vs hu hv
    cases vs with
    | nil =>
      refine ⟨?_, by simp⟩
      simp only [List.map_cons, List.map_nil]
      exact ⟨fun h => absurd h (List.Lex.not_nil_right _ _),
        fun h => absurd h (List.Lex.not_nil_right _ _)⟩
    | cons v vs' =>
      obtain ⟨hu3, hud⟩ := hu u (by simp)
      obtain ⟨hv3, hvd⟩ := hv v (by simp)
      obtain ⟨hblex, hbeq⟩ := block_lex_iff_val u v hu3 hv3 hud hvd
      obtain ⟨hlex', heq'⟩ := ih vs' (fun x hx => hu x (by simp [hx]))
        (fun x hx => hv x (by simp [hx]))
      constructor
      · rw [List.map_cons, List.map_cons, lexConsIff, lexConsIff]
        constructor
        · rintro (h | ⟨h, h'⟩)
          · exact Or.inl (hblex.mp h)
          · exact Or.inr ⟨congrArg strVal h, hlex'.mp h'⟩
        · rintro (h | ⟨h, h'⟩)
          · exact Or.inl (hblex.mpr h)
          · have huv : u = v := hbeq.mpr h
            exact Or.inr ⟨huv, hlex'.mpr h'⟩
      · simp only [List.map_cons, List.cons.injEq]
        rw [hbeq, heq']

theorem normalizeIP_data (a : String) :
    (normalizeIP a).data =
      joinDotL ((splitStr a '.').map (fun p => (padStart p 3 '0').data)) := by
  unfold normalizeIP
  rw [joinChar_data, List.map_map]
  rfl

/-- C2: for addresses whose dotted components are numerals of at most 3
digits, `normalizeIP` pads each component to exactly 3 characters with
leading zeros, the lexicographic (ordinal string) order of the normalized
results coincides with the component-wise numeric order of the addresses
(for both strict order and equality), and the `loginIpRanges` identity key
is the normalized start address joined to the normalized end address. -/
theorem c2_normalizeIP_order (a b : String)
    (ha : ∀ p ∈ splitStr a '.', isNumeral3 p = true)
    (hb : ∀ p ∈ splitStr b '.', isNumeral3 p = true) :
    ((normalizeIP a < normalizeIP b) ↔ ipNums a < ipNums b) ∧
    ((normalizeIP a = normalizeIP b) ↔ ipNums a = ipNums b) ∧
    (∀ p ∈ splitStr a '.', (padStart p 3 '0').data.length = 3 ∧
      (padStart p 3 '0').data = List.replicate (3 - p.data.length) '0' ++ p.data) ∧
    (∀ e : LoginIpRangeEntry, profileAccessNameMap.loginIpRanges e =
      normalizeIP e.startAddress ++ "." ++ normalizeIP e.endAddress) := by
  have hA3 : ∀ u ∈ (splitStr a '.').map (fun p => (padStart p 3 '0').data),
      u.length = 3 ∧ ∀ c ∈ u, c.isDigit = true := by
    intro u hu
    obtain ⟨p, hp, rfl⟩ := List.mem_map.mp hu
    obtain ⟨h1, h2, _⟩ := isNumeral3_block p (ha p hp)
    exact ⟨h1, h2⟩
  have hB3 : ∀ v ∈ (splitStr b '.').map (fun p => (padStart p 3 '0').data),
      v.length = 3 ∧ ∀ c ∈ v, c.isDigit = true := by
    intro v hv
    obtain ⟨p, hp, rfl⟩ := List.mem_map.mp hv
    obtain ⟨h1, h2, _⟩ := isNumeral3_block p (hb p hp)
    exact ⟨h1, h2⟩
  have hvalsA : ((splitStr a '.').map (fun p => (padStart p 3 '0').data)).map strVal =
      ipNums a := by
    rw [List.map_map]
    apply List.map_congr_left
    intro p hp
    exact (isNumeral3_block p (ha p hp)).2.2
  have hvalsB : ((splitStr b '.').map (fun p => (padStart p 3 '0').data)).map strVal =
      ipNums b := by
    rw [List.map_map]
    apply List.map_congr_left
    intro p hp
    exact (isNumeral3_block p (hb p hp)).2.2
  refine ⟨?_, ?_, ?_, fun e => rfl⟩
  · have h1 : (normalizeIP a < normalizeIP b) ↔
        List.Lex (· < ·) (normalizeIP a).data (normalizeIP b).data := by
      rw [String.lt_iff_toList_lt]
      exact Iff.rfl
    rw [h1, normalizeIP_data a, normalizeIP_data b,
      joinDotL_lex _ _ (fun u hu => (hA3 u hu).1) (fun v hv => (hB3 v hv).1),
      (blocks_lex_iff_vals _ _ hA3 hB3).1, hvalsA, hvalsB]
    exact Iff.rfl
  · have h1 : (normalizeIP a = normalizeIP b) ↔
        (normalizeIP a).data = (normalizeIP b).data := by
      rw [← String.toList_inj]
      exact Iff.rfl
    rw [h1, normalizeIP_data a, normalizeIP_data b,
      joinDotL_eq_iff _ _ (fun u hu => (hA3 u hu).1) (fun v hv => (hB3 v hv).1),
      (blocks_lex_iff_vals _ _ hA3 hB3).2, hvalsA, hvalsB]
  · intro p hp
    exact ⟨(isNumeral3_block p (ha p hp)).1, padStart_data p⟩

/-- Witness for C2 at two concrete addresses whose numeric order disagrees
with the raw string order but agrees after normalization. -/
theorem c2_normalizeIP_order_witness :
    (∀ p ∈ splitStr "2.11.0.255" '.', isNumeral3 p = true) ∧
    (∀ p ∈ splitStr "10.2.33.4" '.', isNumeral3 p = true) ∧
    ((normalizeIP "2.11.0.255" < normalizeIP "10.2.33.4") ↔
      ipNums "2.11.0.255" < ipNums "10.2.33.4") ∧
    ((normalizeIP "2.11.0.255" = normalizeIP "10.2.33.4") ↔
      ipNums "2.11.0.255" = ipNums "10.2.33.4") :=
  ⟨by decide, by decide,
   (c2_normalizeIP_order "2.11.0.255" "10.2.33.4" (by decide) (by decide)).1,
   (c2_normalizeIP_order "2.11.0.255" "10.2.33.4" (by decide) (by decide)).2.1⟩
